import Mathlib

/-!
Verification development for the skutil feature-selection core.

Shallow embedding of:
  * `filter_collinearity` and its helpers (src/skutil/feature_selection/select.py),
  * `LinearCombinationFilterer.fit_transform` and `_enum_lc`
    (src/skutil/feature_selection/combos.py),
  * `H2OFScorePercentileSelector._select_features` (src/skutil/h2o/one_way_fs.py).

Floating-point values are embedded as rationals (`ℚ`); a possibly-NaN float is
`Option ℚ` with `none` playing the role of NaN.  Fallible code returns
`Except String`, the string naming the Python exception raised.  The pandas
correlation `DataFrame` is embedded as a list of row labels plus a list of
named columns.
-/

namespace Skutil

/-- A pandas `DataFrame` holding the (absolute) correlation matrix:
row labels plus named columns of possibly-NaN rational entries. -/
structure CorrMat where
  rows : List String
  cols : List (String × List (Option ℚ))
deriving DecidableEq, Repr

/-- Column lookup, `c[nm]` on a `DataFrame`: first column carrying the label. -/
def lookupCol (c : CorrMat) (nm : String) : Option (List (Option ℚ)) :=
  (c.cols.find? (fun p => p.1 == nm)).map Prod.snd

/-- Embeds `c[nm].drop(nm)`: pair the column's values with the row labels and remove
every entry labelled `nm` (pandas `drop` removes all rows with that label). -/
def dropSelf (rows : List String) (nm : String) (vals : List (Option ℚ)) :
    List (String × Option ℚ) :=
  (rows.zip vals).filter (fun p => p.1 != nm)

/-- The sort key of `sort_values(na_position='first')`: ascending on the
values with NaN (`none`) placed before every number. -/
def optLe : Option ℚ → Option ℚ → Bool
  | none, _ => true
  | some _, none => false
  | some a, some b => decide (a ≤ b)

/-- Insert an element into a list sorted by `optLe` on the value component,
after any entry whose key is `≤` the new key. -/
def insertSorted (x : String × Option ℚ) : List (String × Option ℚ) →
    List (String × Option ℚ)
  | [] => [x]
  | y :: ys => if optLe y.2 x.2 then y :: insertSorted x ys else x :: y :: ys

/-- Embeds `sort_values(na_position='first')`: ascending stable sort, NaN first.
(The source's numpy sort leaves the relative order of equal values
unspecified; this embedding determinises it as a stable sort.) -/
def sortVals (l : List (String × Option ℚ)) : List (String × Option ℚ) :=
  l.foldl (fun acc x => insertSorted x acc) []

/-- Embeds `np.nanmean`: the mean of the non-NaN entries, NaN (`none`) when there is
no non-NaN entry. -/
def nanmean (vs : List (Option ℚ)) : Option ℚ :=
  let xs := vs.filterMap id
  if xs.isEmpty then none else some (xs.sum / (xs.length : ℚ))

/-- Embeds `np.maximum`: NaN-propagating maximum. -/
def optMax : Option ℚ → Option ℚ → Option ℚ
  | some a, some b => some (max a b)
  | _, _ => none

/-- The drop decision of `filter_collinearity` (select.py lines 392-397):
if `mn_1` is NaN drop the partner, if `mn_2` is NaN drop `nm`, otherwise
drop `nm` exactly when its mean absolute correlation is strictly greater. -/
def chooseDrop (nm otherNm : String) : Option ℚ → Option ℚ → String
  | none, _ => otherNm
  | some _, none => nm
  | some a, some b => if a > b then nm else otherNm

/-- The `_MCFTuple` record `(feature_x, feature_y, abs_corr, mac)` appended to
the `corrz` list for every dropped feature. -/
structure MCFTuple where
  feature_x : String
  feature_y : String
  abs_corr : ℚ
  mac : Option ℚ
deriving DecidableEq, Repr

/-- One iteration of the inner `for` body of `filter_collinearity` at column
`nm`: returns `none` when the column is skipped (`continue`), and otherwise
the dropped name, the MAC appended to `macor`, and the detail record. -/
def processCol (c : CorrMat) (thr : ℚ) (nm : String) (vals : List (Option ℚ)) :
    Except String (Option (String × Option ℚ × MCFTuple)) :=
  let thisCol := sortVals (dropSelf c.rows nm vals)
  match thisCol.getLast? with
  | none => .error ("IndexError")
  | some last =>
    match last.2 with
    | none => .ok none
    | some maxCor =>
      if maxCor < thr ∨ thisCol.length = 1 then .ok none
      else
        match lookupCol c last.1 with
        | none => .error ("KeyError")
        | some ovals =>
          let thatCol := dropSelf c.rows last.1 ovals
          let mn1 := nanmean (thisCol.map Prod.snd)
          let mn2 := nanmean (thatCol.map Prod.snd)
          let dropNm := chooseDrop nm last.1 mn1 mn2
          let mac := optMax mn1 mn2
          .ok (some (dropNm, mac,
            MCFTuple.mk dropNm (if nm ≠ dropNm then nm else last.1) maxCor mac))

/-- Outcome of one full `for` pass over the columns:
`found` = a drop happened and the pass `break`s; `finished` = the last column
was skipped, setting `finished = True`; `stalled` = there was no column at
all, so the Python `while` loop would spin forever. -/
inductive ScanOut where
  | found : String → Option ℚ → MCFTuple → ScanOut
  | finished : ScanOut
  | stalled : ScanOut
deriving DecidableEq

/-- The inner `for` loop of `filter_collinearity` over the remaining column
list. -/
def scanGo (c : CorrMat) (thr : ℚ) : List (String × List (Option ℚ)) →
    Except String ScanOut
  | [] => .ok ScanOut.stalled
  | [p] =>
    match processCol c thr p.1 p.2 with
    | .error e => .error e
    | .ok none => .ok ScanOut.finished
    | .ok (some (d, m, r)) => .ok (ScanOut.found d m r)
  | p :: q :: rest =>
    match processCol c thr p.1 p.2 with
    | .error e => .error e
    | .ok none => scanGo c thr (q :: rest)
    | .ok (some (d, m, r)) => .ok (ScanOut.found d m r)

/-- One full pass of the `for i, nm in enumerate(c.columns)` loop. -/
def scanCols (c : CorrMat) (thr : ℚ) : Except String ScanOut :=
  scanGo c thr c.cols

/-- Embeds `c.drop(drop_nm, axis=1); c.drop(drop_nm, axis=0)`: remove the column and
the row labelled with the dropped name. -/
def deleteRowCol (d : String) (c : CorrMat) : CorrMat :=
  CorrMat.mk (c.rows.filter (fun r => r != d))
    ((c.cols.filter (fun p => p.1 != d)).map
      (fun p => (p.1, ((c.rows.zip p.2).filter (fun q => q.1 != d)).map Prod.snd)))

/-- The triple of parallel lists built by `filter_collinearity`, plus the
final (destructively shrunk) correlation matrix. -/
structure FCResult where
  drops : List String
  macor : List (Option ℚ)
  corrz : List MCFTuple
  final : CorrMat
deriving DecidableEq, Repr

/-- The outer `while not finished` loop of `filter_collinearity`.  The fuel
argument only bounds the recursion depth; on well-formed inputs the matrix
loses one column per `found` pass, so `#columns + 1` passes always suffice. -/
def fcLoop (thr : ℚ) : ℕ → CorrMat → List String → List (Option ℚ) →
    List MCFTuple → Except String FCResult
  | 0, _, _, _, _ => .error ("fuel exhausted")
  | fuel+1, c, aD, aM, aC =>
    match scanCols c thr with
    | .error e => .error e
    | .ok ScanOut.stalled => .error ("nontermination")
    | .ok ScanOut.finished => .ok (FCResult.mk aD aM aC c)
    | .ok (ScanOut.found d m r) =>
      fcLoop thr fuel (deleteRowCol d c) (aD ++ [d]) (aM ++ [m]) (aC ++ [r])

/-- Embeds `filter_collinearity(c, threshold)` (select.py lines 319-421): validates
squareness, then runs the elimination loop. -/
def filterCollinearity (c : CorrMat) (thr : ℚ) : Except String FCResult :=
  if c.rows.length ≠ c.cols.length then
    .error ("ValueError: input dataframe should be symmetrical in dimensions")
  else fcLoop thr (c.cols.length + 1) c [] [] []

/-- Embeds `_validate_cols` (select.py lines 22-37): a non-None column list of fewer
than two names is a `ValueError`. -/
def validateCols (cols : Option (List String)) : Except String Unit :=
  match cols with
  | some l => if l.length < 2 then .error ("ValueError: too few features") else .ok ()
  | none => .ok ()

/-- Modelled from the spec: `_cols_if_none` (skutil.utils.fixes, not under
src/) resolves an absent column selection to the frame's full column list. -/
def colsIfNone (X : List (String × List ℚ)) (cols : Option (List String)) :
    List String :=
  match cols with
  | none => X.map Prod.fst
  | some l => l

/-- Embeds `MulticollinearityFilterer.fit` (select.py lines 493-525): resolve the
column selection, validate it, compute the absolute-correlation matrix (the
pandas `corr` computation is an external collaborator, passed here as the
function `corrFn`), and run `filter_collinearity`. -/
def mcfFit (corrFn : List (String × List ℚ) → List String → CorrMat) (thr : ℚ)
    (X : List (String × List ℚ)) (cols : Option (List String)) :
    Except String FCResult :=
  let cs := colsIfNone X cols
  match validateCols (some cs) with
  | .error e => .error e
  | .ok _ => filterCollinearity (corrFn X cs) thr

/-! ### The linear-combination resolver (combos.py)

`QRDecomposition` lives in `skutil.odr`, which is not under src/.  Following
the spec's data model it is modelled as an exact rank-revealing decomposition
over `ℚ`: a pivot permutation listing the greedily-collected independent
column indices first and the dependent ones after, with `rank` the number of
independent columns, and regression coefficients obtained by exact Gaussian
elimination. -/

/-- Pointwise `r - f * p` on two rows. -/
def zipSub (r : List ℚ) (f : ℚ) (p : List ℚ) : List ℚ :=
  List.zipWith (fun a b => a - f * b) r p

/-- One Gauss-Jordan elimination step on column `j`: pick a pool row with a
non-zero entry at `j`, normalise it, and eliminate column `j` from every
other row (pool and previous pivot rows alike). -/
def elimStep (j : ℕ) (st : List (ℕ × List ℚ) × List (List ℚ)) :
    List (ℕ × List ℚ) × List (List ℚ) :=
  match st.2.find? (fun r => decide (r.getD j 0 ≠ 0)) with
  | none => st
  | some r =>
    let pr := r.map (fun x => x / r.getD j 0)
    ((st.1.map (fun q => (q.1, zipSub q.2 (q.2.getD j 0) pr))) ++ [(j, pr)],
     (st.2.erase r).map (fun s => zipSub s (s.getD j 0) pr))

/-- Modelled from the spec: the coefficient-extraction routine of the
decomposition (`QRDecomposition.get_coef`, skutil.odr, not under src/).
Solves `Σ xᵢ · colᵢ = y` exactly; `none` when `y` is not in the span. -/
def solveLin (colsI : List (List ℚ)) (y : List ℚ) : Option (List ℚ) :=
  let k := colsI.length
  let rows := (List.range y.length).map
    (fun i => colsI.map (fun c => c.getD i 0) ++ [y.getD i 0])
  let st := (List.range k).foldl (fun s j => elimStep j s) ([], rows)
  if st.2.all (fun r => r.getD k 0 == 0) then
    some ((List.range k).map (fun j =>
      match st.1.find? (fun q => q.1 == j) with
      | some q => q.2.getD k 0
      | none => 0))
  else none

/-- Modelled from the spec: the pivot classification of the rank-revealing
decomposition (`QRDecomposition`, skutil.odr, not under src/).  Walking the
columns left to right from position `i`, a column already in the span of the
independent columns collected so far is dependent; otherwise it joins the
independent set.  Returns (independent indices, dependent indices). -/
def splitGo (accVals : List (List ℚ)) (i : ℕ) :
    List (List ℚ) → List ℕ × List ℕ
  | [] => ([], [])
  | v :: rest =>
    match solveLin accVals v with
    | some _ =>
      let p := splitGo accVals (i+1) rest
      (p.1, i :: p.2)
    | none =>
      let p := splitGo (accVals ++ [v]) (i+1) rest
      (i :: p.1, p.2)

/-- The decomposition's pivot split of a column list: independent column
indices (the first `rank` pivot positions) and dependent ones (the rest). -/
def splitIndep (cols : List (List ℚ)) : List ℕ × List ℕ :=
  splitGo [] 0 cols

/-- The decomposition's `rank`: the number of independent columns. -/
def rankOf (cols : List (List ℚ)) : ℕ :=
  (splitIndep cols).1.length

/-- Full column rank in the sense of the decomposition: `rank == p`. -/
def fullColumnRank (cols : List (List ℚ)) : Prop :=
  rankOf cols = cols.length

/-- Column access by index. -/
def getCol (cols : List (List ℚ)) (j : ℕ) : List ℚ :=
  cols.getD j []

/-- Embeds `b[np.abs(b) < 1e-6] = 0` (combos.py line 179), one coefficient:
zero out a regression coefficient of magnitude strictly below `1e-6`. -/
def zapCoef (c : ℚ) : ℚ :=
  if |c| < 1/1000000 then 0 else c

/-- The zapped regression-coefficient column of dependent column `dj`
against the independent columns (combos.py lines 174-179). -/
def depCoeffs (cols : List (List ℚ)) (dj : ℕ) : List ℚ :=
  ((solveLin ((splitIndep cols).1.map (getCol cols)) (getCol cols dj)).getD
    (List.replicate (splitIndep cols).1.length 0)).map zapCoef

/-- The Dependency Record of dependent column `dj` (combos.py lines 184-189):
`flatten_all([pivot[rank+i], pivot[row_idcs[b[:, i] != 0]]])`, i.e. the
dependent column's own pivoted index followed by the independent pivoted
indices with non-zero (post-zap) coefficient. -/
def depRecord (cols : List (List ℚ)) (dj : ℕ) : List ℕ :=
  dj :: (((splitIndep cols).1.zip (depCoeffs cols dj)).filterMap
    (fun p => if p.2 = 0 then none else some p.1))

/-- Embeds `_enum_lc(QRDecomposition(x))` (combos.py lines 152-194): `none` when the
matrix is full rank (no linear combination to discover), otherwise one
Dependency Record per dependent column, in pivot order. -/
def enumLC (cols : List (List ℚ)) : Option (List (List ℕ)) :=
  if (splitIndep cols).2.isEmpty then none
  else some ((splitIndep cols).2.map (depRecord cols))

/-- Embeds `set([v[0] for _, v in six.iteritems(lc_list)])` (combos.py line 130):
the set of first contributor indices of the pass's Dependency Records. -/
def badOf (d : List (List ℕ)) : List ℕ :=
  (d.filterMap List.head?).dedup

/-- Embeds `np.delete(x, bad, axis=1)`: remove the entries at the listed positions. -/
def removeIdxs {α : Type} (bad : List ℕ) (l : List α) : List α :=
  (l.enum.filter (fun p => decide (p.1 ∉ bad))).map Prod.snd

/-- Embeds `cols[bad]`: the entries at the listed positions. -/
def selectIdxs {α : Type} (bad : List ℕ) (l : List α) : List α :=
  (l.enum.filter (fun p => decide (p.1 ∈ bad))).map Prod.snd

/-- The `while lc_list is not None` loop of
`LinearCombinationFilterer.fit_transform` (combos.py lines 125-144), with a
fuel bound on the recursion: each productive pass removes at least one
column, so `p` passes always reach the fixpoint.  Returns the accumulated
drop names and the surviving names and columns. -/
def lcRun : ℕ → List String → List (List ℚ) → List String →
    List String × List String × List (List ℚ)
  | 0, names, cols, drops => (drops, names, cols)
  | fuel+1, names, cols, drops =>
    match enumLC cols with
    | none => (drops, names, cols)
    | some d =>
      let bad := badOf d
      lcRun fuel (removeIdxs bad names) (removeIdxs bad cols)
        (drops ++ selectIdxs bad names)

/-- Embeds `LinearCombinationFilterer.fit_transform` (combos.py lines 89-149) on the
full column set: run the resolver loop, deduplicate the drop list, and drop
those columns from the input frame. -/
def fitTransform (X : List (String × List ℚ)) :
    List String × List (String × List ℚ) :=
  let r := lcRun (X.map Prod.snd).length (X.map Prod.fst) (X.map Prod.snd) []
  let dd := r.1.dedup
  (dd, X.filter (fun p => decide (p.1 ∉ dd)))

/-! ### The percentile selector (one_way_fs.py) -/

/-- Embeds `_clean_nans` (one_way_fs.py lines 26-29): replace NaN scores by the
float type's minimum (`np.finfo(...).min`, an external numpy constant passed
as `fmin`). -/
def cleanNans (fmin : ℚ) (scores : List (Option ℚ)) : List ℚ :=
  scores.map (fun s => s.getD fmin)

/-- Python slicing `l[:k]` for a possibly negative `k`. -/
def npTakeInt {α : Type} (k : ℤ) (l : List α) : List α :=
  if k < 0 then l.take ((l.length : ℤ) + k).toNat else l.take k.toNat

/-- Embeds `H2OFScorePercentileSelector._select_features` (one_way_fs.py lines
534-576).  `sap` stands in for the external `scipy.stats.scoreatpercentile`
and `fmin` for numpy's float minimum; `int(len * percentile / 100)` is
embedded as the toward-zero integer division. -/
def selectFeatures (sap : List ℚ → ℤ → ℚ) (fmin : ℚ) (percentile : ℤ)
    (allScores : List (Option ℚ)) (featureNames : List String) : List String :=
  if percentile = 100 then []
  else if percentile = 0 then featureNames
  else
    let scores := cleanNans fmin allScores
    let thresh := sap scores (100 - percentile)
    let mask0 := scores.map (fun s => decide (thresh < s))
    let ties := (scores.enum.filter (fun p => decide (p.2 = thresh))).map Prod.fst
    let maskSum := (mask0.filter id).length
    let maxFeats := Int.tdiv ((scores.length : ℤ) * percentile) 100
    let keptTies := npTakeInt (maxFeats - (maskSum : ℤ)) ties
    let mask := mask0.enum.map (fun p => p.2 || decide (p.1 ∈ keptTies))
    ((featureNames.zip mask).filter (fun p => !p.2)).map Prod.fst

/-! ### Concrete instances used to exercise the theorems -/

/-- Column `a` of the MAC-tie correlation matrix. -/
def macTieColA : List (Option ℚ) := [some 1, some (9/10), some (1/10)]

/-- Column `b` of the MAC-tie correlation matrix. -/
def macTieColB : List (Option ℚ) := [some (9/10), some 1, some (1/10)]

/-- Column `c` of the MAC-tie correlation matrix. -/
def macTieColC : List (Option ℚ) := [some (1/10), some (1/10), some 1]

/-- A symmetric 3×3 absolute-correlation matrix in which columns `a` and `b`
correlate at `0.9` (above a `0.85` threshold) and have exactly equal mean
absolute correlations (`0.5` each). -/
def macTieMat : CorrMat :=
  CorrMat.mk ["a", "b", "c"] [("a", macTieColA), ("b", macTieColB), ("c", macTieColC)]

/-- The matrix remaining after `filter_collinearity` deletes column `b` from
`macTieMat`. -/
def macTieMat2 : CorrMat :=
  CorrMat.mk ["a", "c"]
    [("a", [some 1, some (1/10)]), ("c", [some (1/10), some 1])]

/-- The result `filter_collinearity` produces on `macTieMat` at threshold
`0.85`: the partner column `b` is dropped, not the first-encountered `a`. -/
def macTieResult : FCResult :=
  FCResult.mk ["b"] [some (1/2)]
    [MCFTuple.mk ("b") ("a") (9/10) (some (1/2))] macTieMat2

/-- Column `a` of the threshold-edge matrix. -/
def thrEdgeColA : List (Option ℚ) := [some 1, some (85/100), some (1/10)]

/-- Column `b` of the threshold-edge matrix. -/
def thrEdgeColB : List (Option ℚ) := [some (85/100), some 1, some (2/10)]

/-- Column `c` of the threshold-edge matrix. -/
def thrEdgeColC : List (Option ℚ) := [some (1/10), some (2/10), some 1]

/-- A symmetric 3×3 absolute-correlation matrix whose `a`–`b` entry equals
the `0.85` threshold exactly. -/
def thrEdgeMat : CorrMat :=
  CorrMat.mk ["a", "b", "c"]
    [("a", thrEdgeColA), ("b", thrEdgeColB), ("c", thrEdgeColC)]

/-- A `processCol` outcome that triggers a drop (the `break` branch of the
scan, as opposed to `continue` or an exception). -/
def triggersDrop (r : Except String (Option (String × Option ℚ × MCFTuple))) : Prop :=
  ∃ x, r = Except.ok (some x)

/-- A 3-column matrix (as a column list) whose third column is the exact
linear combination `2·a + 3·b`. -/
def lcExample : List (List ℚ) := [[1, 0, 1], [0, 1, 1], [2, 3, 5]]

/-- A named two-column frame of full column rank. -/
def lcFullRankX : List (String × List ℚ) := [("a", [1, 0]), ("b", [0, 1])]

/-!
## Theorems
-/

/-- C2, counterexample: the claim says a coefficient of absolute value
exactly `1e-6` is zeroed; the code's guard is `np.abs(b) < 1e-6`, strict, so
`zapCoef` leaves `1e-6` (a non-zero value) unchanged. -/
theorem zap_boundary_counterexample :
    zapCoef (1/1000000) = 1/1000000 ∧ (1/1000000 : ℚ) ≠ 0 := by
  constructor
  · rw [zapCoef, if_neg]
    rw [abs_of_pos] <;> norm_num
  · norm_num

/-- C2, amended: in the coefficient-zeroing step of `_enum_lc`, a regression
coefficient is zeroed exactly when its absolute value is strictly below
`1e-6`; a coefficient of exactly `1e-6` is not zeroed, and neither is one of
`1.000001e-6`. -/
theorem zap_tolerance_amended (c : ℚ) (h : |c| < 1/1000000) :
    zapCoef c = 0 ∧ zapCoef (1/1000000) = 1/1000000 ∧
    zapCoef (1000001/1000000000000) = 1000001/1000000000000 := by
  refine ⟨?_, ?_, ?_⟩
  · rw [zapCoef, if_pos h]
  · rw [zapCoef, if_neg]
    rw [abs_of_pos] <;> norm_num
  · rw [zapCoef, if_neg]
    rw [abs_of_pos] <;> norm_num

/-- C2, witness: the amended theorem applied at the coefficient `1/2000000`. -/
theorem zap_tolerance_amended_witness :
    |(1/2000000 : ℚ)| < 1/1000000 ∧ zapCoef (1/2000000) = 0 :=
  ⟨by rw [abs_of_pos] <;> norm_num,
   (zap_tolerance_amended (1/2000000) (by rw [abs_of_pos] <;> norm_num)).1⟩

/-- C10: `H2OFScorePercentileSelector._select_features` returns the empty
drop list at `percentile == 100` and the whole feature-name list at
`percentile == 0`, regardless of the scores and of the external
`scoreatpercentile` routine. -/
theorem percentile_extremes (sap : List ℚ → ℤ → ℚ) (fmin : ℚ)
    (scores : List (Option ℚ)) (names : List String) :
    selectFeatures sap fmin 100 scores names = [] ∧
    selectFeatures sap fmin 0 scores names = names := by
  constructor <;> simp [selectFeatures]

/-- C7: the collinearity path validates before any algorithmic work:
`MulticollinearityFilterer.fit` is a `ValueError` when the resolved column
selection has fewer than two names, and `filter_collinearity` is a
`ValueError` when the correlation matrix is not square. -/
theorem validation_precedes_work
    (corrFn : List (String × List ℚ) → List String → CorrMat) (thr : ℚ)
    (X : List (String × List ℚ)) (cols : Option (List String)) (c : CorrMat)
    (h1 : (colsIfNone X cols).length < 2) (h2 : c.rows.length ≠ c.cols.length) :
    mcfFit corrFn thr X cols = .error ("ValueError: too few features") ∧
    filterCollinearity c thr =
      .error ("ValueError: input dataframe should be symmetrical in dimensions") := by
  constructor
  · simp [mcfFit, validateCols, h1]
  · simp [filterCollinearity, h2]

/-- Evaluation rule for the drop branch of `processCol`: when the sorted
column has a defined maximum that does not hit the skip guard and the
partner column is present, the step returns the `chooseDrop` decision with
its MAC and detail record. -/
theorem processCol_step (c : CorrMat) (thr : ℚ) (nm : String)
    (vals : List (Option ℚ)) (o : String) (v : ℚ) (ovals : List (Option ℚ))
    (mn1 mn2 : Option ℚ)
    (hl : (sortVals (dropSelf c.rows nm vals)).getLast? = some (o, some v))
    (hcond : ¬(v < thr ∨ (sortVals (dropSelf c.rows nm vals)).length = 1))
    (hk : lookupCol c o = some ovals)
    (h1 : nanmean ((sortVals (dropSelf c.rows nm vals)).map Prod.snd) = mn1)
    (h2 : nanmean ((dropSelf c.rows o ovals).map Prod.snd) = mn2) :
    processCol c thr nm vals = .ok (some (chooseDrop nm o mn1 mn2,
      optMax mn1 mn2,
      MCFTuple.mk (chooseDrop nm o mn1 mn2)
        (if nm ≠ chooseDrop nm o mn1 mn2 then nm else o) v (optMax mn1 mn2))) := by
  simp only [processCol, hl, hk, h1, h2, hcond, if_false, ite_false]

/-- Evaluation rule for the skip branch of `processCol`: a defined maximum
that is strictly below the threshold, or a single remaining entry, skips. -/
theorem processCol_skip (c : CorrMat) (thr : ℚ) (nm : String)
    (vals : List (Option ℚ)) (o : String) (v : ℚ)
    (hl : (sortVals (dropSelf c.rows nm vals)).getLast? = some (o, some v))
    (hcond : v < thr ∨ (sortVals (dropSelf c.rows nm vals)).length = 1) :
    processCol c thr nm vals = .ok none := by
  simp only [processCol, hl, hcond, if_true, ite_true]

/-- Evaluation rule for the NaN-skip branch of `processCol`: a NaN maximum
skips. -/
theorem processCol_skip_nan (c : CorrMat) (thr : ℚ) (nm : String)
    (vals : List (Option ℚ)) (o : String)
    (hl : (sortVals (dropSelf c.rows nm vals)).getLast? = some (o, (none : Option ℚ))) :
    processCol c thr nm vals = .ok none := by
  simp only [processCol, hl]

/-- Unfolding rule for a `found` pass of the outer loop. -/
theorem fcLoop_step_found {thr : ℚ} {fuel : ℕ} {c : CorrMat} {aD : List String}
    {aM : List (Option ℚ)} {aC : List MCFTuple} {d : String} {m : Option ℚ}
    {r : MCFTuple} (h : scanCols c thr = .ok (ScanOut.found d m r)) :
    fcLoop thr (fuel+1) c aD aM aC =
      fcLoop thr fuel (deleteRowCol d c) (aD ++ [d]) (aM ++ [m]) (aC ++ [r]) := by
  simp only [fcLoop, h]

/-- Unfolding rule for a finishing pass of the outer loop. -/
theorem fcLoop_step_finished {thr : ℚ} {fuel : ℕ} {c : CorrMat}
    {aD : List String} {aM : List (Option ℚ)} {aC : List MCFTuple}
    (h : scanCols c thr = .ok ScanOut.finished) :
    fcLoop thr (fuel+1) c aD aM aC = .ok (FCResult.mk aD aM aC c) := by
  simp only [fcLoop, h]

/-- Concrete evaluation: column `a` of `macTieMat` without its self-entry,
sorted ascending. -/
theorem macTie_sortA : sortVals (dropSelf macTieMat.rows ("a") macTieColA)
    = [(("c"), some (1/10)), (("b"), some (9/10))] := by
  norm_num [sortVals, dropSelf, macTieMat, macTieColA, insertSorted, optLe,
    List.foldl, List.filter, List.zip, List.zipWith]

/-- Concrete evaluation: looking up column `b` of `macTieMat`. -/
theorem macTie_lookupB : lookupCol macTieMat ("b") = some macTieColB := by
  simp [lookupCol, macTieMat, List.find?]

/-- Concrete evaluation: the mean absolute correlation of column `a` of
`macTieMat`. -/
theorem macTie_mnA :
    nanmean ((sortVals (dropSelf macTieMat.rows ("a") macTieColA)).map Prod.snd)
      = some (1/2) := by
  rw [macTie_sortA]
  norm_num [nanmean, List.filterMap, id]

/-- Concrete evaluation: the mean absolute correlation of column `b` of
`macTieMat`. -/
theorem macTie_mnB :
    nanmean ((dropSelf macTieMat.rows ("b") macTieColB).map Prod.snd)
      = some (1/2) := by
  norm_num [nanmean, dropSelf, macTieMat, macTieColB, List.filterMap, id,
    List.zip, List.zipWith, List.filter]

/-- C3: with a defined maximum correlation `v` and the partner column
present, the scan step skips exactly when `v` is strictly below the
threshold or only one other column remains; when `v` is at or above the
threshold (equality included) and more than one other column remains, a drop
is triggered; a NaN maximum always skips. -/
theorem collinearity_threshold_boundary (c : CorrMat) (thr : ℚ) (nm : String)
    (vals : List (Option ℚ)) (o : String) (v : ℚ) (ovals : List (Option ℚ))
    (hl : (sortVals (dropSelf c.rows nm vals)).getLast? = some (o, some v))
    (hk : lookupCol c o = some ovals) :
    (thr ≤ v → (sortVals (dropSelf c.rows nm vals)).length ≠ 1 →
      triggersDrop (processCol c thr nm vals)) ∧
    (v < thr → processCol c thr nm vals = .ok none) ∧
    ((sortVals (dropSelf c.rows nm vals)).length = 1 →
      processCol c thr nm vals = .ok none) ∧
    (∀ c2 nm2 vals2 o2,
      (sortVals (dropSelf c2.rows nm2 vals2)).getLast? = some (o2, (none : Option ℚ)) →
      processCol c2 thr nm2 vals2 = .ok none) := by
  refine ⟨?_, ?_, ?_, ?_⟩
  · intro h1 h2
    exact ⟨_, processCol_step c thr nm vals o v ovals _ _ hl
      (by rw [not_or]; exact ⟨not_lt.mpr h1, h2⟩) hk rfl rfl⟩
  · intro h
    exact processCol_skip c thr nm vals o v hl (Or.inl h)
  · intro h
    exact processCol_skip c thr nm vals o v hl (Or.inr h)
  · intro c2 nm2 vals2 o2 h
    exact processCol_skip_nan c2 thr nm2 vals2 o2 h

/-- Concrete evaluation: column `a` of `thrEdgeMat` without its self-entry,
sorted ascending; its maximum equals the `0.85` threshold exactly. -/
theorem thrEdge_sortA : sortVals (dropSelf thrEdgeMat.rows ("a") thrEdgeColA)
    = [(("c"), some (1/10)), (("b"), some (85/100))] := by
  norm_num [sortVals, dropSelf, thrEdgeMat, thrEdgeColA, insertSorted, optLe,
    List.foldl, List.filter, List.zip, List.zipWith]

/-- Concrete evaluation: looking up column `b` of `thrEdgeMat`. -/
theorem thrEdge_lookupB : lookupCol thrEdgeMat ("b") = some thrEdgeColB := by
  simp [lookupCol, thrEdgeMat, List.find?]

/-- C3, witness: the boundary theorem applied to `thrEdgeMat`, whose `a`–`b`
correlation equals the threshold exactly: the drop is triggered. -/
theorem collinearity_threshold_boundary_witness :
    (85/100 : ℚ) ≤ 85/100 ∧
    triggersDrop (processCol thrEdgeMat (85/100) ("a") thrEdgeColA) :=
  ⟨le_refl _,
    (collinearity_threshold_boundary thrEdgeMat (85/100) ("a") thrEdgeColA
      ("b") (85/100) thrEdgeColB (by rw [thrEdge_sortA]; rfl) thrEdge_lookupB).1 (le_refl _)
      (by rw [thrEdge_sortA]; norm_num)⟩

/-- C1, amended: when the maximum correlation is at or above the threshold
and both mean absolute correlations are defined and exactly equal, the scan
step drops the partner column `o`, not the first-encountered column `nm`
(`nm` is dropped only when its MAC is strictly greater). -/
theorem mac_tie_drops_partner (c : CorrMat) (thr : ℚ) (nm : String)
    (vals : List (Option ℚ)) (o : String) (v : ℚ) (ovals : List (Option ℚ))
    (m : ℚ)
    (hl : (sortVals (dropSelf c.rows nm vals)).getLast? = some (o, some v))
    (hthr : thr ≤ v)
    (hlen : (sortVals (dropSelf c.rows nm vals)).length ≠ 1)
    (hk : lookupCol c o = some ovals)
    (h1 : nanmean ((sortVals (dropSelf c.rows nm vals)).map Prod.snd) = some m)
    (h2 : nanmean ((dropSelf c.rows o ovals).map Prod.snd) = some m) :
    processCol c thr nm vals = .ok (some (o, some m,
      MCFTuple.mk o (if nm ≠ o then nm else o) v (some m))) := by
  have hstep := processCol_step c thr nm vals o v ovals (some m) (some m) hl
    (by rw [not_or]; exact ⟨not_lt.mpr hthr, hlen⟩) hk h1 h2
  simpa [chooseDrop, optMax, lt_irrefl, max_self] using hstep

/-- C1, witness for the amended theorem: on `macTieMat` the two MACs are both
`0.5` and the step drops the partner `b`. -/
theorem mac_tie_drops_partner_witness :
    nanmean ((sortVals (dropSelf macTieMat.rows ("a") macTieColA)).map Prod.snd)
      = some (1/2) ∧
    nanmean ((dropSelf macTieMat.rows ("b") macTieColB).map Prod.snd)
      = some (1/2) ∧
    processCol macTieMat (85/100) ("a") macTieColA = .ok (some (("b"), some (1/2),
      MCFTuple.mk ("b") ("a") (9/10) (some (1/2)))) := by
  refine ⟨macTie_mnA, macTie_mnB, ?_⟩
  have h := mac_tie_drops_partner macTieMat (85/100) ("a") macTieColA ("b")
    (9/10) macTieColB (1/2) (by rw [macTie_sortA]; rfl) (by norm_num)
    (by rw [macTie_sortA]; norm_num) macTie_lookupB macTie_mnA macTie_mnB
  simpa using h

/-- Concrete evaluation: the scan step at column `a` of `macTieMat` drops
the partner `b` (proved from the step rule, independently of the tie
theorem). -/
theorem macTie_step1 : processCol macTieMat (85/100) ("a") macTieColA
    = .ok (some (("b"), some (1/2),
        MCFTuple.mk ("b") ("a") (9/10) (some (1/2)))) := by
  have h := processCol_step macTieMat (85/100) ("a") macTieColA ("b") (9/10)
    macTieColB (some (1/2)) (some (1/2)) (by rw [macTie_sortA]; rfl)
    (by rw [not_or]; exact ⟨by norm_num, by rw [macTie_sortA]; norm_num⟩)
    macTie_lookupB macTie_mnA macTie_mnB
  simpa [chooseDrop, optMax, lt_irrefl, max_self] using h

/-- Concrete evaluation: the first full pass over `macTieMat` breaks with the
drop of column `b`. -/
theorem macTie_scan1 : scanCols macTieMat (85/100)
    = .ok (ScanOut.found ("b") (some (1/2))
        (MCFTuple.mk ("b") ("a") (9/10) (some (1/2)))) := by
  have hm : macTieMat.cols
      = [(("a"), macTieColA), (("b"), macTieColB), (("c"), macTieColC)] := rfl
  simp only [scanCols, hm, scanGo, macTie_step1]

/-- Concrete evaluation: deleting row and column `b` from `macTieMat`. -/
theorem macTie_delete : deleteRowCol ("b") macTieMat = macTieMat2 := by
  simp [deleteRowCol, macTieMat, macTieMat2, macTieColA, macTieColB,
    macTieColC, List.filter, List.zip, List.zipWith]

/-- Concrete evaluation: column `a` of the shrunk matrix, sorted. -/
theorem macTie2_sortA :
    sortVals (dropSelf macTieMat2.rows ("a") [some 1, some (1/10)])
      = [(("c"), some (1/10))] := by
  norm_num [sortVals, dropSelf, macTieMat2, insertSorted, optLe, List.foldl,
    List.filter, List.zip, List.zipWith]

/-- Concrete evaluation: column `c` of the shrunk matrix, sorted. -/
theorem macTie2_sortC :
    sortVals (dropSelf macTieMat2.rows ("c") [some (1/10), some 1])
      = [(("a"), some (1/10))] := by
  norm_num [sortVals, dropSelf, macTieMat2, insertSorted, optLe, List.foldl,
    List.filter, List.zip, List.zipWith]

/-- Concrete evaluation: after the drop of `b`, column `a` is skipped. -/
theorem macTie2_skipA :
    processCol macTieMat2 (85/100) ("a") [some 1, some (1/10)] = .ok none :=
  processCol_skip macTieMat2 (85/100) ("a") [some 1, some (1/10)] ("c") (1/10)
    (by rw [macTie2_sortA]; rfl) (Or.inl (by norm_num))

/-- Concrete evaluation: after the drop of `b`, column `c` is skipped,
finishing the loop. -/
theorem macTie2_skipC :
    processCol macTieMat2 (85/100) ("c") [some (1/10), some 1] = .ok none :=
  processCol_skip macTieMat2 (85/100) ("c") [some (1/10), some 1] ("a") (1/10)
    (by rw [macTie2_sortC]; rfl) (Or.inl (by norm_num))

/-- Concrete evaluation: the second full pass finds nothing and finishes. -/
theorem macTie_scan2 : scanCols macTieMat2 (85/100) = .ok ScanOut.finished := by
  have hm : macTieMat2.cols
      = [(("a"), [some 1, some (1/10)]), (("c"), [some (1/10), some 1])] := rfl
  simp only [scanCols, hm, scanGo, macTie2_skipA, macTie2_skipC]

/-- Concrete evaluation: the full run of `filter_collinearity` on
`macTieMat` at threshold `0.85`. -/
theorem macTie_run : filterCollinearity macTieMat (85/100) = .ok macTieResult := by
  rw [filterCollinearity, if_neg (by norm_num [macTieMat])]
  rw [fcLoop_step_found macTie_scan1, macTie_delete]
  rw [show macTieMat.cols.length = 2 + 1 from by norm_num [macTieMat]]
  rw [fcLoop_step_finished macTie_scan2]
  rfl

/-- C1, counterexample: on `macTieMat` the maximum correlation of the
first-scanned column `a` is `0.9 ≥ 0.85`, attained at `b`, and the two mean
absolute correlations are exactly equal; yet the full run of
`filter_collinearity` drops `b` — the partner — not the first-encountered
column `a` as the claim states. -/
theorem mac_tie_counterexample :
    nanmean ((sortVals (dropSelf macTieMat.rows ("a") macTieColA)).map Prod.snd)
      = nanmean ((dropSelf macTieMat.rows ("b") macTieColB).map Prod.snd) ∧
    (sortVals (dropSelf macTieMat.rows ("a") macTieColA)).getLast?
      = some (("b"), some (9/10)) ∧
    (85/100 : ℚ) ≤ 9/10 ∧
    filterCollinearity macTieMat (85/100) = .ok macTieResult ∧
    macTieResult.drops = ["b"] := by
  refine ⟨?_, ?_, by norm_num, macTie_run, rfl⟩
  · rw [macTie_mnA, macTie_mnB]
  · rw [macTie_sortA]; rfl

/-- C7, witness: the validation theorem applied to a one-column frame and a
1×0 correlation matrix. -/
theorem validation_precedes_work_witness :
    mcfFit (fun _ _ => CorrMat.mk [] []) (1/2) [(("a"), ([1] : List ℚ))] none =
      .error ("ValueError: too few features") ∧
    filterCollinearity (CorrMat.mk [("a")] []) (1/2) =
      .error ("ValueError: input dataframe should be symmetrical in dimensions") := by
  have h := validation_precedes_work (fun _ _ => CorrMat.mk [] []) (1/2)
    [(("a"), ([1] : List ℚ))] none (CorrMat.mk [("a")] []) (by decide) (by decide)
  exact ⟨h.1, h.2⟩

/-- A successful scan step's detail record is consistent with its drop name
and MAC: `feature_x` is the dropped name and `mac` the appended MAC. -/
theorem processCol_found_consistent (c : CorrMat) (thr : ℚ) (nm : String)
    (vals : List (Option ℚ)) {d : String} {m : Option ℚ} {r : MCFTuple}
    (h : processCol c thr nm vals = .ok (some (d, m, r))) :
    r.feature_x = d ∧ r.mac = m := by
  simp only [processCol] at h
  split at h
  · exact absurd h (by simp)
  · split at h
    · exact absurd h (by simp)
    · split at h
      · exact absurd h (by simp)
      · split at h
        · exact absurd h (by simp)
        · simp only [Except.ok.injEq, Option.some.injEq, Prod.mk.injEq] at h
          obtain ⟨h1, h2, h3⟩ := h
          subst h1
          subst h2
          subst h3
          exact ⟨rfl, rfl⟩

/-- A pass that breaks with a drop hands the loop a record consistent with
the dropped name and the MAC. -/
theorem scanGo_found_consistent (c : CorrMat) (thr : ℚ) :
    ∀ (l : List (String × List (Option ℚ))) (d : String) (m : Option ℚ)
      (r : MCFTuple), scanGo c thr l = .ok (ScanOut.found d m r) →
      r.feature_x = d ∧ r.mac = m := by
  intro l
  induction l with
  | nil => intro d m r h; simp [scanGo] at h
  | cons p tl ih =>
    intro d m r h
    cases tl with
    | nil =>
      simp only [scanGo] at h
      cases hpc : processCol c thr p.1 p.2 with
      | error e => rw [hpc] at h; simp at h
      | ok o =>
        rw [hpc] at h
        cases o with
        | none => simp at h
        | some x =>
          obtain ⟨dx, mx, rx⟩ := x
          simp only [Except.ok.injEq, ScanOut.found.injEq] at h
          obtain ⟨h1, h2, h3⟩ := h
          subst h1
          subst h2
          subst h3
          exact processCol_found_consistent c thr p.1 p.2 hpc
    | cons q rest =>
      simp only [scanGo] at h
      cases hpc : processCol c thr p.1 p.2 with
      | error e => rw [hpc] at h; simp at h
      | ok o =>
        rw [hpc] at h
        cases o with
        | none =>
          simp only [] at h
          exact ih d m r h
        | some x =>
          obtain ⟨dx, mx, rx⟩ := x
          simp only [Except.ok.injEq, ScanOut.found.injEq] at h
          obtain ⟨h1, h2, h3⟩ := h
          subst h1
          subst h2
          subst h3
          exact processCol_found_consistent c thr p.1 p.2 hpc

/-- Deleting a name from the matrix restricts its column-name list. -/
theorem map_fst_delete (d : String) (c : CorrMat) :
    (deleteRowCol d c).cols.map Prod.fst
      = (c.cols.map Prod.fst).filter (fun n => n != d) := by
  simp only [deleteRowCol]
  induction c.cols with
  | nil => rfl
  | cons p tl ih =>
    by_cases hp : (p.1 != d) = true
    · simp [List.filter_cons, hp, ih]
    · simp [List.filter_cons, hp, ih]

/-- Composing a single-name deletion with a later multi-name filter. -/
theorem filter_ne_notMem (d : String) (ds : List String) (l : List String) :
    (l.filter (fun n => n != d)).filter (fun n => decide (n ∉ ds))
      = l.filter (fun n => decide (n ∉ (d :: ds))) := by
  rw [List.filter_filter]
  refine List.filter_congr ?_
  intro x hx
  by_cases h1 : x = d <;> by_cases h2 : x ∈ ds <;> simp [h1, h2]

/-- Master invariant of the outer loop: a successful run extends the
accumulators by one aligned entry per drop event, each detail record
consistent with its drop name and MAC, and the final matrix is the input
with exactly the newly dropped labels filtered out of both axes. -/
theorem fcLoop_ok_spec (thr : ℚ) :
    ∀ (fuel : ℕ) (c : CorrMat) (aD : List String) (aM : List (Option ℚ))
      (aC : List MCFTuple) (res : FCResult),
      fcLoop thr fuel c aD aM aC = .ok res →
      ∃ L : List (String × Option ℚ × MCFTuple),
        res.drops = aD ++ L.map (fun x => x.1) ∧
        res.macor = aM ++ L.map (fun x => x.2.1) ∧
        res.corrz = aC ++ L.map (fun x => x.2.2) ∧
        (∀ x ∈ L, x.2.2.feature_x = x.1 ∧ x.2.2.mac = x.2.1) ∧
        res.final.cols.map Prod.fst
          = (c.cols.map Prod.fst).filter
              (fun n => decide (n ∉ L.map (fun x => x.1))) ∧
        res.final.rows
          = c.rows.filter (fun n => decide (n ∉ L.map (fun x => x.1))) := by
  intro fuel
  induction fuel with
  | zero => intro c aD aM aC res h; simp [fcLoop] at h
  | succ n ih =>
    intro c aD aM aC res h
    simp only [fcLoop] at h
    cases hs : scanCols c thr with
    | error e => rw [hs] at h; simp at h
    | ok s =>
      rw [hs] at h
      cases s with
      | stalled => simp at h
      | finished =>
        simp only [Except.ok.injEq] at h
        subst h
        refine ⟨[], by simp, by simp, by simp, by simp, ?_, ?_⟩
        · simp
        · simp
      | found d m r =>
        simp only [] at h
        have hcons := scanGo_found_consistent c thr c.cols d m r hs
        obtain ⟨L, hD, hM, hC, hall, hcols, hrows⟩ :=
          ih (deleteRowCol d c) (aD ++ [d]) (aM ++ [m]) (aC ++ [r]) res h
        refine ⟨(d, m, r) :: L, ?_, ?_, ?_, ?_, ?_, ?_⟩
        · rw [hD]; simp
        · rw [hM]; simp
        · rw [hC]; simp
        · intro x hx
          rcases List.mem_cons.mp hx with hx0 | hx'
          · subst hx0; exact hcons
          · exact hall x hx'
        · rw [hcols, map_fst_delete]
          simpa using filter_ne_notMem d (L.map (fun x => x.1))
            (c.cols.map Prod.fst)
        · rw [hrows]
          show (c.rows.filter (fun n => n != d)).filter
              (fun n => decide (n ∉ L.map (fun x => x.1))) = _
          simpa using filter_ne_notMem d (L.map (fun x => x.1)) c.rows

/-- C8: `filter_collinearity` destructively shrinks the matrix it is handed:
on a successful run, the final matrix's column labels and row labels are the
input's with every dropped name deleted, in original order. -/
theorem fc_destructive_shrink (c : CorrMat) (thr : ℚ) (res : FCResult)
    (h : filterCollinearity c thr = .ok res) :
    res.final.cols.map Prod.fst
      = (c.cols.map Prod.fst).filter (fun n => decide (n ∉ res.drops)) ∧
    res.final.rows = c.rows.filter (fun n => decide (n ∉ res.drops)) := by
  rw [filterCollinearity] at h
  split at h
  · exact absurd h (by simp)
  · obtain ⟨L, hD, _, _, _, hcols, hrows⟩ :=
      fcLoop_ok_spec thr (c.cols.length + 1) c [] [] [] res h
    simp only [List.nil_append] at hD
    rw [hD]
    exact ⟨hcols, hrows⟩

/-- C8, witness: the shrink theorem applied to the concrete run on
`macTieMat`. -/
theorem fc_destructive_shrink_witness :
    macTieResult.final.cols.map Prod.fst
      = (macTieMat.cols.map Prod.fst).filter
          (fun n => decide (n ∉ macTieResult.drops)) ∧
    macTieResult.final.rows
      = macTieMat.rows.filter (fun n => decide (n ∉ macTieResult.drops)) :=
  fc_destructive_shrink macTieMat (85/100) macTieResult macTie_run

/-- C9: on every successful run the three returned lists are parallel: equal
lengths, and at every index the detail record's `feature_x` is the dropped
name and its `mac` the recorded MAC. -/
theorem fc_parallel_lists (c : CorrMat) (thr : ℚ) (res : FCResult)
    (h : filterCollinearity c thr = .ok res) :
    res.drops.length = res.macor.length ∧
    res.macor.length = res.corrz.length ∧
    ∀ i : ℕ, (res.corrz[i]?).map MCFTuple.feature_x = res.drops[i]? ∧
      (res.corrz[i]?).map MCFTuple.mac = res.macor[i]? := by
  rw [filterCollinearity] at h
  split at h
  · exact absurd h (by simp)
  · obtain ⟨L, hD, hM, hC, hall, _, _⟩ :=
      fcLoop_ok_spec thr (c.cols.length + 1) c [] [] [] res h
    simp only [List.nil_append] at hD hM hC
    refine ⟨?_, ?_, ?_⟩
    · rw [hD, hM]; simp
    · rw [hM, hC]; simp
    · intro i
      rw [hD, hM, hC]
      simp only [List.getElem?_map]
      cases hx : L[i]? with
      | none => simp
      | some x =>
        have hxm : x ∈ L := List.getElem?_mem hx
        have hpx := hall x hxm
        simp [hpx.1, hpx.2]

/-- C9, witness: the parallel-lists theorem applied to the concrete run on
`macTieMat`. -/
theorem fc_parallel_lists_witness :
    macTieResult.drops.length = macTieResult.macor.length ∧
    (macTieResult.corrz[0]?).map MCFTuple.feature_x = macTieResult.drops[0]? :=
  ⟨(fc_parallel_lists macTieMat (85/100) macTieResult macTie_run).1,
   ((fc_parallel_lists macTieMat (85/100) macTieResult macTie_run).2.2 0).1⟩

/-- Boolean equality on naturals as a decidable proposition (evaluation
helper). -/
theorem nat_beq_decide (a b : ℕ) : (a == b) = decide (a = b) := by
  by_cases h : a = b <;> simp [h]

/-- A coefficient at or above the tolerance is left unchanged by the zap. -/
theorem zapCoef_big (c : ℚ) (h : 1/1000000 ≤ c) : zapCoef c = c := by
  rw [zapCoef, if_neg]
  rw [abs_of_pos (lt_of_lt_of_le (by norm_num) h)]
  exact not_lt.mpr h

/-- The pivot split partitions the column positions. -/
theorem splitGo_length : ∀ (l : List (List ℚ)) (acc : List (List ℚ)) (i : ℕ),
    (splitGo acc i l).1.length + (splitGo acc i l).2.length = l.length := by
  intro l
  induction l with
  | nil => intro acc i; simp [splitGo]
  | cons v rest ih =>
    intro acc i
    cases h : solveLin acc v with
    | some b =>
      have := ih acc (i+1)
      simp only [splitGo, h, List.length_cons]
      omega
    | none =>
      have := ih (acc ++ [v]) (i+1)
      simp only [splitGo, h, List.length_cons]
      omega

/-- Every pivot index produced from position `i` on a list of length `n`
lies in `[i, i + n)`. -/
theorem splitGo_mem_bounds : ∀ (l : List (List ℚ)) (acc : List (List ℚ))
    (i : ℕ) (x : ℕ), (x ∈ (splitGo acc i l).1 ∨ x ∈ (splitGo acc i l).2) →
    i ≤ x ∧ x < i + l.length := by
  intro l
  induction l with
  | nil => intro acc i x hx; simp [splitGo] at hx
  | cons v rest ih =>
    intro acc i x hx
    cases h : solveLin acc v with
    | some b =>
      simp only [splitGo, h] at hx
      rcases hx with hx | hx
      · have := ih acc (i+1) x (Or.inl hx)
        simp only [List.length_cons]
        omega
      · rcases List.mem_cons.mp hx with rfl | hx'
        · simp only [List.length_cons]; omega
        · have := ih acc (i+1) x (Or.inr hx')
          simp only [List.length_cons]
          omega
    | none =>
      simp only [splitGo, h] at hx
      rcases hx with hx | hx
      · rcases List.mem_cons.mp hx with rfl | hx'
        · simp only [List.length_cons]; omega
        · have := ih (acc ++ [v]) (i+1) x (Or.inl hx')
          simp only [List.length_cons]
          omega
      · have := ih (acc ++ [v]) (i+1) x (Or.inr hx)
        simp only [List.length_cons]
        omega

/-- The dependent pivot indices are pairwise distinct. -/
theorem splitGo_dep_nodup : ∀ (l : List (List ℚ)) (acc : List (List ℚ))
    (i : ℕ), (splitGo acc i l).2.Nodup := by
  intro l
  induction l with
  | nil => intro acc i; simp [splitGo]
  | cons v rest ih =>
    intro acc i
    cases h : solveLin acc v with
    | some b =>
      simp only [splitGo, h]
      refine List.Nodup.cons ?_ (ih acc (i+1))
      intro hmem
      have := (splitGo_mem_bounds rest acc (i+1) i (Or.inr hmem)).1
      omega
    | none =>
      simp only [splitGo, h]
      exact ih (acc ++ [v]) (i+1)

/-- Shape of a successful `_enum_lc`: one record per dependent pivot index,
and the dependent set is non-empty. -/
theorem enumLC_eq (cols : List (List ℚ)) (d : List (List ℕ))
    (h : enumLC cols = some d) :
    d = ((splitIndep cols).2).map (depRecord cols) ∧
    (splitIndep cols).2 ≠ [] := by
  unfold enumLC at h
  split at h
  · exact absurd h (by simp)
  · next hne =>
    refine ⟨(Option.some.injEq _ _ ▸ h).symm, ?_⟩
    simpa [List.isEmpty_iff] using hne

/-- The heads of the Dependency Records are exactly the dependent pivot
indices, in order. -/
theorem heads_depRecords (cols : List (List ℚ)) :
    ∀ dep : List ℕ, (dep.map (depRecord cols)).filterMap List.head? = dep := by
  intro dep
  induction dep with
  | nil => rfl
  | cons dj tl ih => simp [depRecord, List.filterMap_cons, ih]

/-- The bad set of a successful `_enum_lc` pass is the dependent pivot
index list itself. -/
theorem badOf_enumLC (cols : List (List ℚ)) (d : List (List ℕ))
    (h : enumLC cols = some d) : badOf d = (splitIndep cols).2 := by
  obtain ⟨hd, _⟩ := enumLC_eq cols d h
  subst hd
  unfold badOf
  rw [heads_depRecords]
  exact List.Nodup.dedup (splitGo_dep_nodup cols [] 0)

/-- `_enum_lc` returns `None` exactly on matrices of full column rank. -/
theorem enumLC_none_iff (cols : List (List ℚ)) :
    enumLC cols = none ↔ fullColumnRank cols := by
  have hlen : (splitIndep cols).1.length + (splitIndep cols).2.length
      = cols.length := splitGo_length cols [] 0
  unfold fullColumnRank rankOf
  rcases hdep : (splitIndep cols).2 with _ | ⟨x, xs⟩
  · rw [hdep] at hlen
    simp only [List.length_nil, Nat.add_zero] at hlen
    simp [enumLC, hdep, hlen]
  · rw [hdep] at hlen
    simp only [List.length_cons] at hlen
    simp only [enumLC, hdep]
    constructor
    · intro h
      exact absurd h (by simp)
    · intro h
      omega

/-- Deleting a valid index strictly shrinks the list. -/
theorem removeIdxs_length_lt {α : Type} (bad : List ℕ) (l : List α) (b : ℕ)
    (hb : b ∈ bad) (hlt : b < l.length) :
    (removeIdxs bad l).length < l.length := by
  unfold removeIdxs
  rw [List.length_map]
  have hlen : l.enum.length = l.length := List.enum_length
  rw [← hlen]
  refine List.length_filter_lt_length_iff_exists.mpr ?_
  refine ⟨(b, l.get ⟨b, hlt⟩), ?_, ?_⟩
  · refine List.mk_mem_enum_iff_getElem?.mpr ?_
    exact List.getElem?_eq_getElem hlt
  · simp [hb]

/-- Whenever `_enum_lc` finds a dependency, the pass removes at least one
column. -/
theorem enumLC_decrease (cols : List (List ℚ)) (d : List (List ℕ))
    (he : enumLC cols = some d) :
    (removeIdxs (badOf d) cols).length < cols.length := by
  obtain ⟨_, hne⟩ := enumLC_eq cols d he
  have hbad := badOf_enumLC cols d he
  rcases hdep : (splitIndep cols).2 with _ | ⟨b, bs⟩
  · exact absurd hdep hne
  · have hbmem : b ∈ badOf d := by
      rw [hbad, hdep]
      exact List.mem_cons_self b bs
    have hmem2 : b ∈ (splitIndep cols).2 := by
      rw [hdep]
      exact List.mem_cons_self b bs
    have hbound := splitGo_mem_bounds cols [] 0 b (Or.inr hmem2)
    exact removeIdxs_length_lt (badOf d) cols b hbmem (by omega)

/-- With fuel at least the column count, the resolver loop reaches the
fixpoint: no dependency remains. -/
theorem lcRun_fixpoint :
    ∀ (fuel : ℕ) (names : List String) (cols : List (List ℚ))
      (drops : List String), cols.length ≤ fuel →
      enumLC (lcRun fuel names cols drops).2.2 = none := by
  intro fuel
  induction fuel with
  | zero =>
    intro names cols drops h
    have hnil : cols = [] := List.length_eq_zero.mp (Nat.le_zero.mp h)
    subst hnil
    simp [lcRun, enumLC, splitIndep, splitGo]
  | succ n ih =>
    intro names cols drops h
    cases he : enumLC cols with
    | none => simp [lcRun, he]
    | some d =>
      have hdec := enumLC_decrease cols d he
      simp only [lcRun, he]
      exact ih _ _ _ (by omega)

/-- Mapping a function over a list relates pointwise to the list itself. -/
theorem forall2_map_self {α β : Type} (f : α → β) (P : β → α → Prop) :
    ∀ (L : List α), (∀ a ∈ L, P (f a) a) → List.Forall₂ P (L.map f) L := by
  intro L
  induction L with
  | nil => intro _; simp
  | cons a tl ih =>
    intro h
    refine List.Forall₂.cons (h a (List.mem_cons_self a tl)) ?_
    exact ih (fun x hx => h x (List.mem_cons_of_mem a hx))

/-- C4: the linear-combination resolver loop removes at least one column
whenever `_enum_lc` finds a dependency, and with `p` iterations of fuel (for
`p` input columns) it reaches a state in which no dependency remains, i.e.
the retained columns have full column rank. -/
theorem lc_loop_termination (names : List String) (cols : List (List ℚ)) :
    (∀ d, enumLC cols = some d →
      (removeIdxs (badOf d) cols).length < cols.length) ∧
    enumLC (lcRun cols.length names cols []).2.2 = none ∧
    fullColumnRank (lcRun cols.length names cols []).2.2 := by
  have hfix := lcRun_fixpoint cols.length names cols [] (le_refl _)
  exact ⟨fun d he => enumLC_decrease cols d he, hfix, (enumLC_none_iff _).mp hfix⟩

/-- Concrete evaluation: `_enum_lc` on the matrix whose third column is
`2·a + 3·b` produces the single Dependency Record `[2, 0, 1]`. -/
theorem lcExample_enum : enumLC lcExample = some [[2, 0, 1]] := by
  norm_num [enumLC, splitIndep, splitGo, solveLin, elimStep, zipSub,
    depRecord, depCoeffs, getCol, lcExample, List.range_succ, nat_beq_decide,
    List.find?, List.all, List.getD, List.get?, List.erase, List.foldl]
  norm_num [zapCoef_big, List.filterMap]

/-- C4, witness: the termination theorem applied to the dependent 3-column
matrix `lcExample`. -/
theorem lc_loop_termination_witness :
    (removeIdxs (badOf [[2, 0, 1]]) lcExample).length < lcExample.length ∧
    enumLC (lcRun lcExample.length ["a", "b", "c"] lcExample []).2.2 = none := by
  have h := lc_loop_termination ["a", "b", "c"] lcExample
  exact ⟨h.1 [[2, 0, 1]] lcExample_enum, h.2.1⟩

/-- Keeping the first components of selected zip pairs preserves the order
of, and stays within, the left list. -/
theorem filterMap_if_zip_sublist : ∀ (l : List ℕ) (m : List ℚ),
    ((l.zip m).filterMap
      (fun p => if p.2 = 0 then none else some p.1)).Sublist l := by
  intro l
  induction l with
  | nil => intro m; simp
  | cons a tl ih =>
    intro m
    cases m with
    | nil => simp
    | cons b mt =>
      simp only [List.zip_cons_cons, List.filterMap_cons]
      by_cases hb : b = 0
      · simp only [hb, if_pos rfl]
        exact (ih mt).cons a
      · simp only [if_neg hb]
        exact (ih mt).cons₂ a

/-- C5: each Dependency Record of a pass heads with the dependent column's
own pivoted index, and its remaining contributors are exactly the
independent pivoted indices carrying a non-zero (post-zap) regression
coefficient — an index appears in the tail if and only if its coefficient
is non-zero, and the tail follows the pivot order of the independent list;
the bad set marked for removal is exactly the set of first contributor
indices — one removed column per record. -/
theorem lc_dependency_records (cols : List (List ℚ)) (d : List (List ℕ))
    (h : enumLC cols = some d) :
    List.Forall₂ (fun r dj => r.head? = some dj ∧
        (∀ x, x ∈ r.tail ↔
          ∃ p ∈ ((splitIndep cols).1.zip (depCoeffs cols dj)),
            p.1 = x ∧ p.2 ≠ 0) ∧
        r.tail.Sublist (splitIndep cols).1)
      d (splitIndep cols).2 ∧
    badOf d = (splitIndep cols).2 ∧
    (∀ j, j ∈ badOf d ↔ ∃ r ∈ d, r.head? = some j) ∧
    (badOf d).length = d.length := by
  obtain ⟨hdeq, _⟩ := enumLC_eq cols d h
  have hbad := badOf_enumLC cols d h
  subst hdeq
  refine ⟨?_, hbad, ?_, ?_⟩
  · refine forall2_map_self (depRecord cols) _ _ ?_
    intro dj _
    refine ⟨by simp [depRecord], ?_, ?_⟩
    · intro x
      simp only [depRecord, List.tail_cons]
      constructor
      · intro hx
        obtain ⟨p, hp, hgp⟩ := List.mem_filterMap.mp hx
        refine ⟨p, hp, ?_⟩
        by_cases hz : p.2 = 0
        · rw [if_pos hz] at hgp
          exact absurd hgp (by simp)
        · rw [if_neg hz] at hgp
          exact ⟨Option.some.injEq _ _ ▸ hgp, hz⟩
      · rintro ⟨p, hp, hpx, hpz⟩
        refine List.mem_filterMap.mpr ⟨p, hp, ?_⟩
        rw [if_neg hpz, hpx]
    · simp only [depRecord, List.tail_cons]
      exact filterMap_if_zip_sublist (splitIndep cols).1 (depCoeffs cols dj)
  · intro j
    constructor
    · intro hj
      rw [hbad] at hj
      exact ⟨depRecord cols j, List.mem_map_of_mem _ hj, by simp [depRecord]⟩
    · rintro ⟨r, hr, hhead⟩
      obtain ⟨dj, hdj, rfl⟩ := List.mem_map.mp hr
      have : dj = j := by simpa [depRecord] using hhead
      subst this
      rw [hbad]
      exact hdj
  · rw [hbad, List.length_map]

/-- C5, witness: the record-shape theorem applied to `lcExample`, whose one
record is `[2, 0, 1]` with bad set `{2}` — the dependent pivot set. -/
theorem lc_dependency_records_witness :
    badOf [[2, 0, 1]] = (splitIndep lcExample).2 ∧
    (badOf [[2, 0, 1]]).length = [[2, 0, 1]].length := by
  have h := lc_dependency_records lcExample [[2, 0, 1]] lcExample_enum
  exact ⟨h.2.1, h.2.2.2⟩

/-- C6: running the resolver on a frame already of full column rank is a
successful no-op: empty drop list and the frame returned column-for-column
unchanged. -/
theorem lc_full_rank_noop (X : List (String × List ℚ))
    (h : fullColumnRank (X.map Prod.snd)) :
    fitTransform X = ([], X) := by
  have hnone : enumLC (X.map Prod.snd) = none := (enumLC_none_iff _).mpr h
  have hr : lcRun (X.map Prod.snd).length (X.map Prod.fst) (X.map Prod.snd) []
      = ([], X.map Prod.fst, X.map Prod.snd) := by
    rcases hL : (X.map Prod.snd).length with _ | n
    · rfl
    · simp [lcRun, hnone]
  simp only [fitTransform, hr]
  rw [List.dedup_nil]
  refine Prod.ext rfl ?_
  show X.filter (fun p => decide (p.1 ∉ ([] : List String))) = X
  refine List.filter_eq_self.mpr ?_
  intro a _
  simp

/-- C6, witness: the no-op theorem applied to the full-rank two-column
frame. -/
theorem lc_full_rank_noop_witness :
    fullColumnRank (lcFullRankX.map Prod.snd) ∧
    fitTransform lcFullRankX = ([], lcFullRankX) := by
  have hfull : fullColumnRank (lcFullRankX.map Prod.snd) := by
    norm_num [fullColumnRank, rankOf, splitIndep, splitGo, solveLin, elimStep,
      zipSub, lcFullRankX, List.range_succ, nat_beq_decide, List.find?,
      List.all, List.getD, List.get?, List.erase, List.foldl]
  exact ⟨hfull, lc_full_rank_noop lcFullRankX hfull⟩

end Skutil
